import Mathlib

/-!
# EDGE driver: synchronization loop, global time step, entity-characteristic overrides

A shallow embedding of `src/main.cpp` of EDGE.  Three parts of `main` are covered:

* the loop over synchronization points (lines 213-218, 229-231, 249-264),
* the reduction that yields the global time step `l_dTgts` (lines 194-199, 210),
* the three statements that enhance the entity characteristics (lines 153-163).

The loop is embedded twice.  In `main` times are exact rationals; in `mainD` every
arithmetic operation on a `double` is rounded to IEEE 754 binary64 (`roundDouble`), which is
what the compiled program computes.  In both the step counter `l_step` is an unbounded
integer.  The tolerance `TOL.TIME` is declared outside `main.cpp` and is therefore an
argument of the embedding (`tolTime`).
-/

namespace edge

/-! ## Loop over synchronization points -/

/-- Calls that `main` issues to its two collaborators inside and right before the loop:
`l_writer.write( . )` of the wave field writer and `l_time.simulate( . )` of the time
manager. -/
inductive Call where
  | write (elapsed : ℚ)
  | simulate (duration : ℚ)
deriving DecidableEq

/-- State threaded through the loop: the local `l_simTime`, the calls issued so far (oldest
first) and the lines written by `EDGE_LOG_INFO << "reached synchronization point #" ...`,
each recorded as the pair (number of the synchronization point, `l_simTime`). -/
structure SyncState where
  l_simTime : ℚ
  calls : List Call
  log : List (ℤ × ℚ)
deriving DecidableEq

/-- Lines 216-218: `l_syncInt = l_config.m_waveFieldInt;`
`if( std::abs(l_syncInt) < TOL.TIME ) l_syncInt = l_endTime;`. -/
def syncInterval (tolTime l_endTime m_waveFieldInt : ℚ) : ℚ :=
  if |m_waveFieldInt| < tolTime then l_endTime else m_waveFieldInt

/-- Body of the loop, lines 251-263: derive `l_stepTime`, call `simulate`, advance
`l_simTime`, log the synchronization point, call `write`. -/
def syncStep (l_endTime l_syncInt : ℚ) (l_step : ℤ) (st : SyncState) : SyncState :=
  let l_stepTime := max 0 (l_endTime - st.l_simTime)
  let l_stepTime := min l_stepTime l_syncInt
  let l_simTime := st.l_simTime + l_stepTime
  ⟨l_simTime, st.calls ++ [Call.simulate l_stepTime, Call.write l_stepTime],
    st.log ++ [(l_step, l_simTime)]⟩

/-- Line 250: `for( int l_step = 1; l_step < l_endTime/l_syncInt+1; l_step++ )`, entered at
the current value of `l_step`.  The quotient is the quotient of rationals; for
`l_syncInt = 0` it is `0`, so the body is not entered.  When `TOL.TIME` is positive the
interval is zero only for `l_endTime = 0` (a zero interval is replaced by `l_endTime`), where
the source compares `l_step` with a NaN and does not enter the body either. -/
def syncLoop (l_endTime l_syncInt : ℚ) (l_step : ℤ) (st : SyncState) : SyncState :=
  if (l_step : ℚ) < l_endTime / l_syncInt + 1 then
    syncLoop l_endTime l_syncInt (l_step + 1) (syncStep l_endTime l_syncInt l_step st)
  else st
termination_by (⌈l_endTime / l_syncInt + 1⌉ - l_step).toNat
decreasing_by
  have h : l_step < ⌈l_endTime / l_syncInt + 1⌉ := Int.lt_ceil.mpr (by assumption)
  omega

/-- Lines 213-264 of `main`: `l_simTime = 0`, `l_endTime = l_config.m_endTime`, the
synchronization interval, the log line of synchronization point #0, the initial
`l_writer.write( 0 )`, then the loop starting at `l_step = 1`. -/
def main (tolTime m_endTime m_waveFieldInt : ℚ) : SyncState :=
  syncLoop m_endTime (syncInterval tolTime m_endTime m_waveFieldInt) 1
    ⟨0, [Call.write 0], [(0, 0)]⟩

/-- Specification helper: the calls of consecutive loop iterations with the given
durations, `simulate(d)` followed by `write(d)` for each `d`. -/
def syncCalls : List ℚ → List Call
  | [] => []
  | d :: ds => Call.simulate d :: Call.write d :: syncCalls ds

/-- Specification helper: the arguments of the `simulate` calls of a trace, in call order. -/
def simulateArgs : List Call → List ℚ
  | [] => []
  | Call.simulate d :: cs => d :: simulateArgs cs
  | Call.write _ :: cs => simulateArgs cs

/-- Specification helper: the arguments of the `write` calls of a trace, in call order. -/
def writeArgs : List Call → List ℚ
  | [] => []
  | Call.write d :: cs => d :: writeArgs cs
  | Call.simulate _ :: cs => writeArgs cs

/-! ## Global time step -/

/-- `MPI_Allreduce( sendbuf, recvbuf, 1, MPI_DOUBLE, MPI_MIN, MPI_COMM_WORLD )` as seen by
one rank: the single reduced value is the minimum of the contributed values of all ranks,
`own` being the contribution of the calling rank and `others` those of the remaining
ranks of the communicator. -/
def allreduceMin (own : ℚ) (others : List ℚ) : ℚ :=
  others.foldl min own

/-- Lines 194-199: the global time step.  `l_dT` is the array `double l_dT[3]` (minimum,
average, maximum) of the calling rank, `otherRanks` holds the arrays of the other ranks.
With `PP_USE_MPI` one element starting at `l_dT` is reduced with `MPI_MIN`, otherwise
`l_dTgts = l_dT[0]`.  The result is the first argument of the constructor of
`edge::time::Manager` (line 210). -/
def l_dTgts (PP_USE_MPI : Bool) (l_dT : Fin 3 → ℚ) (otherRanks : List (Fin 3 → ℚ)) : ℚ :=
  if PP_USE_MPI then allreduceMin (l_dT 0) (otherRanks.map fun r => r 0) else l_dT 0

/-! ## Entity-characteristic overrides -/

/-- Effects of the statements of lines 154-163: a fatal log entry with its message, or the
call of `edge::mesh::SparseTypes< T_SDISC.FACE >::set` on the face characteristics. -/
inductive SetupEffect where
  | logFatal (msg : String)
  | sparseTypesSetFace
deriving DecidableEq

/-- The statement of `main` guarded by `l_config.m_spTypesDoms[i].size() > 0`, for
`i = 0, 1, 2` (lines 154, 155-162, 163); `none` when the guard fails. -/
def enhanceStmt {D : Type} (i : Fin 3) (doms : List D) : Option SetupEffect :=
  match i with
  | 0 => if doms.length > 0 then some (SetupEffect.logFatal "not implemented") else none
  | 1 => if doms.length > 0 then some SetupEffect.sparseTypesSetFace else none
  | 2 => if doms.length > 0 then some (SetupEffect.logFatal "not implemented") else none

/-- Effects of a sequence of guarded statements in program order.  `EDGE_LOG_FATAL` is
defined in `io/logging.h`, outside `main.cpp`; whether a fatal log entry ends the process
is the argument `abortOnFatal`. -/
def runSetup (abortOnFatal : Bool) : List (Option SetupEffect) → List SetupEffect
  | [] => []
  | none :: rest => runSetup abortOnFatal rest
  | some (SetupEffect.logFatal msg) :: rest =>
    SetupEffect.logFatal msg :: (if abortOnFatal then [] else runSetup abortOnFatal rest)
  | some SetupEffect.sparseTypesSetFace :: rest =>
    SetupEffect.sparseTypesSetFace :: runSetup abortOnFatal rest

/-- Lines 153-163 of `main`: the three override statements in program order. -/
def enhanceEntityChars {D : Type} (abortOnFatal : Bool) (m_spTypesDoms : Fin 3 → List D) :
    List SetupEffect :=
  runSetup abortOnFatal
    [enhanceStmt 0 (m_spTypesDoms 0), enhanceStmt 1 (m_spTypesDoms 1),
      enhanceStmt 2 (m_spTypesDoms 2)]

/-- Specification helper: category `i` is handled when a request for it (a non-empty list
of domains) is applied to the entity characteristics. -/
def handled (i : Fin 3) : Bool :=
  enhanceStmt i [()] == some SetupEffect.sparseTypesSetFace

/-- Specification helper: category `i` is unimplemented when a request for it yields the
fatal log entry "not implemented". -/
def unimplemented (i : Fin 3) : Bool :=
  enhanceStmt i [()] == some (SetupEffect.logFatal "not implemented")

/-! ## Loop over synchronization points in double precision -/

theorem syncLoop_exit (e s : ℚ) (k : ℤ) (st : SyncState) (h : ¬ ((k : ℚ) < e / s + 1)) :
    syncLoop e s k st = st := by
  rw [syncLoop, if_neg h]

theorem syncLoop_enter (e s : ℚ) (k : ℤ) (st : SyncState) (h : (k : ℚ) < e / s + 1) :
    syncLoop e s k st = syncLoop e s (k + 1) (syncStep e s k st) := by
  rw [syncLoop, if_pos h]

/-- The loop is a counted loop: entered at `l_step = k` it runs the body for the next
`⌈e / s + 1⌉ - k` values of the counter. -/
theorem syncLoop_eq_foldl (e s : ℚ) : ∀ (m : ℕ) (k : ℤ) (st : SyncState),
    (⌈e / s + 1⌉ - k).toNat = m →
    syncLoop e s k st =
      (List.range m).foldl (fun (acc : SyncState) (i : ℕ) => syncStep e s (k + (i : ℤ)) acc)
        st := by
  intro m
  induction m with
  | zero =>
    intro k st h
    have hk : ¬ ((k : ℚ) < e / s + 1) := by
      intro hlt
      have := Int.lt_ceil.mpr hlt
      omega
    simp [syncLoop_exit e s k st hk]
  | succ m ih =>
    intro k st h
    have hk : (k : ℚ) < e / s + 1 := by
      apply Int.lt_ceil.mp
      omega
    rw [syncLoop_enter e s k st hk, ih (k + 1) _ (by omega), List.range_succ_eq_map,
      List.foldl_cons, List.foldl_map]
    simp only [Nat.cast_zero, add_zero, Nat.succ_eq_add_one, Nat.cast_add, Nat.cast_one]
    congr 1
    funext acc i
    congr 1
    ring

theorem simulateArgs_syncCalls (ds : List ℚ) : simulateArgs (syncCalls ds) = ds := by
  induction ds with
  | nil => rfl
  | cons d ds ih => simp [syncCalls, simulateArgs, ih]

theorem writeArgs_syncCalls (ds : List ℚ) : writeArgs (syncCalls ds) = ds := by
  induction ds with
  | nil => rfl
  | cons d ds ih => simp [syncCalls, writeArgs, ih]

/-- Shape of the calls for every configuration: each iteration appends `simulate(d)` and
`write(d)` with `d = min (max 0 (e - t)) s` for the accumulated time `t` at its start. -/
theorem foldl_syncStep_shape (e s : ℚ) (k : ℤ) : ∀ (l : List ℕ) (st : SyncState),
    ∃ ds : List ℚ, ds.length = l.length ∧
      (l.foldl (fun (acc : SyncState) (i : ℕ) => syncStep e s (k + (i : ℤ)) acc) st).calls =
        st.calls ++ syncCalls ds ∧
      ∀ d ∈ ds, ∃ t : ℚ, d = min (max 0 (e - t)) s := by
  intro l
  induction l with
  | nil => intro st; exact ⟨[], rfl, by simp [syncCalls], by simp⟩
  | cons i l ih =>
    intro st
    obtain ⟨ds, hlen, hcalls, hds⟩ := ih (syncStep e s (k + (i : ℤ)) st)
    refine ⟨min (max 0 (e - st.l_simTime)) s :: ds, by simp [hlen], ?_, ?_⟩
    · rw [List.foldl_cons, hcalls]
      simp [syncStep, syncCalls]
    · intro d hd
      rcases List.mem_cons.mp hd with rfl | hd
      · exact ⟨st.l_simTime, rfl⟩
      · exact hds d hd

theorem main_shape (tol e w : ℚ) :
    ∃ ds : List ℚ, (ds.length : ℤ) = (⌈e / syncInterval tol e w⌉).toNat ∧
      (main tol e w).calls = Call.write 0 :: syncCalls ds ∧
      ∀ d ∈ ds, ∃ t : ℚ, d = min (max 0 (e - t)) (syncInterval tol e w) := by
  obtain ⟨ds, hlen, hcalls, hds⟩ := foldl_syncStep_shape e (syncInterval tol e w) 1
    (List.range (⌈e / syncInterval tol e w + 1⌉ - 1).toNat) ⟨0, [Call.write 0], [(0, 0)]⟩
  refine ⟨ds, ?_, ?_, hds⟩
  · rw [hlen, List.length_range, Int.ceil_add_one]
    simp
  · unfold main
    rw [syncLoop_eq_foldl e _ _ 1 _ rfl, hcalls]
    rfl

theorem foldl_syncStep_log (e s : ℚ) (k : ℤ) : ∀ (l : List ℕ) (st : SyncState),
    ∃ lg : List (ℤ × ℚ),
      (l.foldl (fun (acc : SyncState) (i : ℕ) => syncStep e s (k + (i : ℤ)) acc) st).log =
        st.log ++ lg := by
  intro l
  induction l with
  | nil => intro st; exact ⟨[], by simp⟩
  | cons i l ih =>
    intro st
    obtain ⟨lg, hlg⟩ := ih (syncStep e s (k + (i : ℤ)) st)
    exact ⟨(k + (i : ℤ), st.l_simTime + min (max 0 (e - st.l_simTime)) s) :: lg,
      by rw [List.foldl_cons, hlg]; simp [syncStep]⟩

theorem main_log_head (tol e w : ℚ) : (main tol e w).log[0]? = some (0, 0) := by
  obtain ⟨lg, hlg⟩ := foldl_syncStep_log e (syncInterval tol e w) 1
    (List.range (⌈e / syncInterval tol e w + 1⌉ - 1).toNat) ⟨0, [Call.write 0], [(0, 0)]⟩
  unfold main
  rw [syncLoop_eq_foldl e _ _ 1 _ rfl, hlg]
  simp

theorem syncCalls_head_ne_write (ds : List ℚ) (d : ℚ) :
    (syncCalls ds)[0]? ≠ some (Call.write d) := by
  cases ds <;> simp [syncCalls]

/-- In a run of loop iterations every `simulate(d)` is directly followed by `write(d)`, and
what follows that is not a further `write`. -/
theorem syncCalls_protocol : ∀ (ds : List ℚ) (i : ℕ) (d : ℚ),
    (syncCalls ds)[i]? = some (Call.simulate d) →
      (syncCalls ds)[i + 1]? = some (Call.write d) ∧
        ∀ d2 : ℚ, (syncCalls ds)[i + 2]? ≠ some (Call.write d2) := by
  intro ds
  induction ds with
  | nil => intro i d h; simp [syncCalls] at h
  | cons x xs ih =>
    intro i d h
    match i with
    | 0 =>
      simp only [syncCalls, List.getElem?_cons_zero, Option.some.injEq, Call.simulate.injEq] at h
      subst h
      refine ⟨by simp [syncCalls], ?_⟩
      intro d2
      simpa [syncCalls] using syncCalls_head_ne_write xs d2
    | 1 => simp [syncCalls] at h
    | j + 2 =>
      simp only [syncCalls, List.getElem?_cons_succ] at h ⊢
      exact ih j d h

/-! ## Auxiliary results on the reduction -/

theorem allreduceMin_le_own (own : ℚ) (others : List ℚ) : allreduceMin own others ≤ own := by
  unfold allreduceMin
  induction others generalizing own with
  | nil => simp
  | cons x xs ih => exact le_trans (ih (min own x)) (min_le_left _ _)

theorem allreduceMin_le_mem (own : ℚ) (others : List ℚ) :
    ∀ x ∈ others, allreduceMin own others ≤ x := by
  unfold allreduceMin
  induction others generalizing own with
  | nil => simp
  | cons y ys ih =>
    intro x hx
    rcases List.mem_cons.mp hx with rfl | hx
    · exact le_trans (allreduceMin_le_own (min own x) ys) (min_le_right _ _)
    · exact ih (min own y) x hx

theorem allreduceMin_mem (own : ℚ) (others : List ℚ) :
    allreduceMin own others ∈ own :: others := by
  unfold allreduceMin
  induction others generalizing own with
  | nil => simp
  | cons y ys ih =>
    rcases List.mem_cons.mp (ih (min own y)) with h | h
    · rw [List.foldl_cons, h]
      rcases min_choice own y with h2 | h2 <;> simp [h2]
    · simp [h]

/-! ## Auxiliary results on the loop in double precision -/

/-- C2: with end time `1`, synchronization interval `1/4` and any tolerance below `1/4`,
the driver issues the initial `write(0)` followed by exactly four `simulate(1/4)` calls,
each followed by `write(1/4)`; the accumulated simulation time after the loop is `1` and
the writer receives exactly five `write` calls. -/
theorem main_end_to_end (tolTime : ℚ) (htol : tolTime < 1 / 4) :
    (main tolTime 1 (1 / 4)).calls =
        [Call.write 0, Call.simulate (1 / 4), Call.write (1 / 4), Call.simulate (1 / 4),
          Call.write (1 / 4), Call.simulate (1 / 4), Call.write (1 / 4), Call.simulate (1 / 4),
          Call.write (1 / 4)] ∧
      simulateArgs (main tolTime 1 (1 / 4)).calls = [1 / 4, 1 / 4, 1 / 4, 1 / 4] ∧
      (main tolTime 1 (1 / 4)).l_simTime = 1 ∧
      (writeArgs (main tolTime 1 (1 / 4)).calls).length = 5 := by
  have hs : syncInterval tolTime 1 (1 / 4) = 1 / 4 := by
    unfold syncInterval
    rw [if_neg]
    rw [abs_of_pos (by norm_num)]
    linarith
  have hmain : main tolTime 1 (1 / 4) =
      ⟨1, [Call.write 0, Call.simulate (1 / 4), Call.write (1 / 4), Call.simulate (1 / 4),
          Call.write (1 / 4), Call.simulate (1 / 4), Call.write (1 / 4), Call.simulate (1 / 4),
          Call.write (1 / 4)],
        [(0, 0), (1, 1 / 4), (2, 1 / 2), (3, 3 / 4), (4, 1)]⟩ := by
    unfold main
    rw [hs, syncLoop_enter _ _ _ _ (by norm_num), syncLoop_enter _ _ _ _ (by norm_num),
      syncLoop_enter _ _ _ _ (by norm_num), syncLoop_enter _ _ _ _ (by norm_num),
      syncLoop_exit _ _ _ _ (by norm_num)]
    simp only [syncStep]
    norm_num
  rw [hmain]
  exact ⟨rfl, rfl, rfl, rfl⟩

theorem main_end_to_end_witness :
    (1 / 1000 : ℚ) < 1 / 4 ∧
      ((main (1 / 1000) 1 (1 / 4)).calls =
          [Call.write 0, Call.simulate (1 / 4), Call.write (1 / 4), Call.simulate (1 / 4),
            Call.write (1 / 4), Call.simulate (1 / 4), Call.write (1 / 4),
            Call.simulate (1 / 4), Call.write (1 / 4)] ∧
        simulateArgs (main (1 / 1000) 1 (1 / 4)).calls = [1 / 4, 1 / 4, 1 / 4, 1 / 4] ∧
        (main (1 / 1000) 1 (1 / 4)).l_simTime = 1 ∧
        (writeArgs (main (1 / 1000) 1 (1 / 4)).calls).length = 5) :=
  ⟨by norm_num, main_end_to_end (1 / 1000) (by norm_num)⟩

/-- C3: for every end time `> 0`, whenever the configured synchronization interval is below
`TOL.TIME` in absolute value (zero and small negative values included), the interval
collapses to the end time and the driver issues exactly one `simulate` call, whose duration
is exactly the end time (between the initial `write(0)` and the closing `write`). -/
theorem main_degenerate_syncInt (tolTime m_endTime m_waveFieldInt : ℚ) (he : 0 < m_endTime)
    (hw : |m_waveFieldInt| < tolTime) :
    syncInterval tolTime m_endTime m_waveFieldInt = m_endTime ∧
      simulateArgs (main tolTime m_endTime m_waveFieldInt).calls = [m_endTime] ∧
      (main tolTime m_endTime m_waveFieldInt).calls =
        [Call.write 0, Call.simulate m_endTime, Call.write m_endTime] := by
  have hs : syncInterval tolTime m_endTime m_waveFieldInt = m_endTime := by
    unfold syncInterval
    rw [if_pos hw]
  have hne : m_endTime ≠ 0 := ne_of_gt he
  have hmain : main tolTime m_endTime m_waveFieldInt =
      ⟨m_endTime, [Call.write 0, Call.simulate m_endTime, Call.write m_endTime],
        [(0, 0), (1, m_endTime)]⟩ := by
    unfold main
    rw [hs, syncLoop_enter _ _ _ _ (by rw [div_self hne]; norm_num),
      syncLoop_exit _ _ _ _ (by rw [div_self hne]; norm_num)]
    simp [syncStep, le_of_lt he]
  refine ⟨hs, ?_, ?_⟩
  · rw [hmain]; rfl
  · rw [hmain]

theorem main_degenerate_syncInt_witness :
    (0 : ℚ) < 7 / 2 ∧ |(0 : ℚ)| < 1 / 1000 ∧
      (syncInterval (1 / 1000) (7 / 2) 0 = 7 / 2 ∧
        simulateArgs (main (1 / 1000) (7 / 2) 0).calls = [7 / 2] ∧
        (main (1 / 1000) (7 / 2) 0).calls =
          [Call.write 0, Call.simulate (7 / 2), Call.write (7 / 2)]) :=
  ⟨by norm_num, by norm_num,
    main_degenerate_syncInt (1 / 1000) (7 / 2) 0 (by norm_num) (by norm_num)⟩

/-! ## Every interval is positive -/

/-- C6: for every end time, synchronization interval and tolerance, the trace of `write`
and `simulate` calls starts with `write(0)`, logged as synchronization point #0 at
simulation time `0`; every `simulate(d)` comes after it and is immediately followed by
`write(d)` with the same `d`, which is not followed by a second `write`; hence the `write`
arguments are `0` followed by the `simulate` arguments, and there is exactly one `write`
call more than `simulate` calls. -/
theorem main_handoff_protocol (tolTime m_endTime m_waveFieldInt : ℚ) :
    (main tolTime m_endTime m_waveFieldInt).calls[0]? = some (Call.write 0) ∧
      (main tolTime m_endTime m_waveFieldInt).log[0]? = some (0, 0) ∧
      (∀ (i : ℕ) (d : ℚ),
        (main tolTime m_endTime m_waveFieldInt).calls[i]? = some (Call.simulate d) →
          0 < i ∧
          (main tolTime m_endTime m_waveFieldInt).calls[i + 1]? = some (Call.write d) ∧
          ∀ d2 : ℚ, (main tolTime m_endTime m_waveFieldInt).calls[i + 2]? ≠
            some (Call.write d2)) ∧
      writeArgs (main tolTime m_endTime m_waveFieldInt).calls =
        0 :: simulateArgs (main tolTime m_endTime m_waveFieldInt).calls ∧
      (writeArgs (main tolTime m_endTime m_waveFieldInt).calls).length =
        (simulateArgs (main tolTime m_endTime m_waveFieldInt).calls).length + 1 := by
  obtain ⟨ds, _, hcalls, _⟩ := main_shape tolTime m_endTime m_waveFieldInt
  have hargs : writeArgs (main tolTime m_endTime m_waveFieldInt).calls =
      0 :: simulateArgs (main tolTime m_endTime m_waveFieldInt).calls := by
    rw [hcalls]
    simp only [writeArgs, simulateArgs, writeArgs_syncCalls, simulateArgs_syncCalls]
  refine ⟨by rw [hcalls]; simp, main_log_head _ _ _, ?_, hargs, by rw [hargs]; rfl⟩
  intro i d h
  rw [hcalls] at h ⊢
  match i with
  | 0 => simp at h
  | j + 1 =>
    simp only [List.getElem?_cons_succ] at h ⊢
    exact ⟨Nat.succ_pos j, syncCalls_protocol ds j d h⟩

/-! ## Sign of the durations -/

/-- C10, counterexample: with end time `-1`, configured synchronization interval `-1` and
tolerance `1/1000` the loop runs once and passes the duration `-1` to `simulate` and to the
writer: the clamp yields `max(0, -1 - 0) = 0`, and `min(0, l_syncInt)` is `-1`. -/
theorem main_negative_duration :
    simulateArgs (main (1 / 1000) (-1) (-1)).calls = [-1] ∧
      writeArgs (main (1 / 1000) (-1) (-1)).calls = [0, -1] ∧
      ¬ (∀ d ∈ simulateArgs (main (1 / 1000) (-1) (-1)).calls, 0 ≤ d) := by
  have hs : syncInterval (1 / 1000) (-1) (-1) = -1 := by
    unfold syncInterval
    rw [if_neg]
    norm_num
  have hmain : main (1 / 1000) (-1) (-1) =
      ⟨-1, [Call.write 0, Call.simulate (-1), Call.write (-1)], [(0, 0), (1, -1)]⟩ := by
    unfold main
    rw [hs, syncLoop_enter _ _ _ _ (by norm_num), syncLoop_exit _ _ _ _ (by norm_num)]
    simp only [syncStep]
    norm_num
  rw [hmain]
  refine ⟨rfl, rfl, ?_⟩
  simp [simulateArgs]

/-- C10, amended: whenever the end time is `>= 0` or the effective synchronization interval
is `>= 0` (the configured interval may have any sign), every duration passed to `simulate`
and every duration passed to the writer is `>= 0`. -/
theorem main_durations_nonneg (tolTime m_endTime m_waveFieldInt : ℚ)
    (h : 0 ≤ m_endTime ∨ 0 ≤ syncInterval tolTime m_endTime m_waveFieldInt) :
    (∀ d ∈ simulateArgs (main tolTime m_endTime m_waveFieldInt).calls, 0 ≤ d) ∧
      ∀ d ∈ writeArgs (main tolTime m_endTime m_waveFieldInt).calls, 0 ≤ d := by
  obtain ⟨ds, hlen, hcalls, hds⟩ := main_shape tolTime m_endTime m_waveFieldInt
  have hnn : ∀ d ∈ ds, 0 ≤ d := by
    by_cases hs : 0 ≤ syncInterval tolTime m_endTime m_waveFieldInt
    · intro d hd
      obtain ⟨t, rfl⟩ := hds d hd
      exact le_min (le_max_left _ _) hs
    · have he : 0 ≤ m_endTime := h.resolve_right hs
      have hq : m_endTime / syncInterval tolTime m_endTime m_waveFieldInt ≤ ((0 : ℤ) : ℚ) := by
        rw [Int.cast_zero]
        exact div_nonpos_of_nonneg_of_nonpos he (le_of_lt (not_le.mp hs))
      have hc := Int.ceil_le.mpr hq
      have h0 : ds.length = 0 := by omega
      rw [List.length_eq_zero] at h0
      subst h0
      simp
  rw [hcalls]
  simp only [writeArgs, simulateArgs, writeArgs_syncCalls, simulateArgs_syncCalls]
  refine ⟨hnn, ?_⟩
  intro d hd
  rcases List.mem_cons.mp hd with rfl | hd
  · exact le_refl _
  · exact hnn d hd

theorem main_durations_nonneg_witness :
    ((0 : ℚ) ≤ 2 ∨ 0 ≤ syncInterval (1 / 1000) 2 (3 / 4)) ∧
      simulateArgs (main (1 / 1000) 2 (3 / 4)).calls = [3 / 4, 3 / 4, 1 / 2] ∧
      writeArgs (main (1 / 1000) 2 (3 / 4)).calls = [0, 3 / 4, 3 / 4, 1 / 2] ∧
      ((∀ d ∈ simulateArgs (main (1 / 1000) 2 (3 / 4)).calls, 0 ≤ d) ∧
        ∀ d ∈ writeArgs (main (1 / 1000) 2 (3 / 4)).calls, 0 ≤ d) := by
  have hs : syncInterval (1 / 1000) 2 (3 / 4) = 3 / 4 := by
    unfold syncInterval
    rw [if_neg]
    norm_num [abs_of_pos]
  have hmain : main (1 / 1000) 2 (3 / 4) =
      ⟨2, [Call.write 0, Call.simulate (3 / 4), Call.write (3 / 4), Call.simulate (3 / 4),
          Call.write (3 / 4), Call.simulate (1 / 2), Call.write (1 / 2)],
        [(0, 0), (1, 3 / 4), (2, 3 / 2), (3, 2)]⟩ := by
    unfold main
    rw [hs, syncLoop_enter _ _ _ _ (by norm_num), syncLoop_enter _ _ _ _ (by norm_num),
      syncLoop_enter _ _ _ _ (by norm_num), syncLoop_exit _ _ _ _ (by norm_num)]
    simp only [syncStep]
    norm_num
  refine ⟨Or.inl (by norm_num), by rw [hmain]; rfl, by rw [hmain]; rfl,
    main_durations_nonneg (1 / 1000) 2 (3 / 4) (Or.inl (by norm_num))⟩

/-! ## Global time step -/

/-- C7: with MPI, for the calling rank and any list of further ranks, the global time step
`l_dTgts` handed to the time manager is the minimum over all ranks of their local minimum
`l_dT[0]`: it is below every rank's `l_dT[0]` and equal to the `l_dT[0]` of some rank; it does
not depend on the average `l_dT[1]` and maximum `l_dT[2]` of any rank; with a single rank,
and without MPI, it is the local `l_dT[0]` exactly. -/
theorem l_dTgts_eq_global_min (l_dT : Fin 3 → ℚ) (otherRanks : List (Fin 3 → ℚ)) :
    (∀ r ∈ l_dT :: otherRanks, l_dTgts true l_dT otherRanks ≤ r 0) ∧
      (∃ r ∈ l_dT :: otherRanks, l_dTgts true l_dT otherRanks = r 0) ∧
      (∀ (l_dT2 : Fin 3 → ℚ) (otherRanks2 : List (Fin 3 → ℚ)),
        l_dT2 0 = l_dT 0 → (otherRanks2.map fun r => r 0) = (otherRanks.map fun r => r 0) →
          l_dTgts true l_dT2 otherRanks2 = l_dTgts true l_dT otherRanks) ∧
      l_dTgts true l_dT [] = l_dT 0 ∧
      l_dTgts false l_dT otherRanks = l_dT 0 := by
  refine ⟨?_, ?_, ?_, rfl, rfl⟩
  · intro r hr
    simp only [l_dTgts, if_true]
    rcases List.mem_cons.mp hr with rfl | hr
    · exact allreduceMin_le_own _ _
    · exact allreduceMin_le_mem _ _ _ (List.mem_map.mpr ⟨r, hr, rfl⟩)
  · simp only [l_dTgts, if_true]
    rcases List.mem_cons.mp (allreduceMin_mem (l_dT 0) (otherRanks.map fun r => r 0)) with h | h
    · exact ⟨l_dT, List.mem_cons_self _ _, h⟩
    · obtain ⟨r, hr, hr0⟩ := List.mem_map.mp h
      exact ⟨r, List.mem_cons_of_mem _ hr, hr0.symm⟩
  · intro l_dT2 o2 h0 ho
    simp only [l_dTgts, if_true, h0, ho]

/-! ## Entity-characteristic overrides -/

/-- C8, counterexample: a request for the first override category `m_spTypesDoms[0]` alone
is not applied to the entity characteristics but yields the fatal entry "not implemented";
the handled categories are not two in number and the unimplemented ones are not the third
alone. -/
theorem enhance_first_category_fatal :
    enhanceStmt 0 [()] = some (SetupEffect.logFatal "not implemented") ∧
      enhanceEntityChars false (fun i : Fin 3 => if i = 0 then [()] else []) =
        [SetupEffect.logFatal "not implemented"] ∧
      ¬ ((List.finRange 3).filter handled).length = 2 ∧
      ¬ (List.finRange 3).filter unimplemented = [2] := by
  decide

/-- C8, amended: of the three override categories exactly one, the second
(`m_spTypesDoms[1]`, faces), is handled: requested (non-empty) it is applied to the entity
characteristics; the other two, `m_spTypesDoms[0]` and `m_spTypesDoms[2]`, are unimplemented
and each yields the fatal entry "not implemented" when requested.  No requested category is
skipped, and a run in which an unimplemented category is requested records the fatal entry,
whether or not a fatal entry ends the process. -/
theorem enhance_dispatch {D : Type} (doms : List D) (h : doms ≠ []) :
    enhanceStmt 0 doms = some (SetupEffect.logFatal "not implemented") ∧
      enhanceStmt 1 doms = some SetupEffect.sparseTypesSetFace ∧
      enhanceStmt 2 doms = some (SetupEffect.logFatal "not implemented") ∧
      (∀ i : Fin 3, enhanceStmt i doms ≠ none) ∧
      (List.finRange 3).filter handled = [1] ∧
      (List.finRange 3).filter unimplemented = [0, 2] ∧
      (∀ (abortOnFatal : Bool) (cfg : Fin 3 → List D), cfg 0 = doms ∨ cfg 2 = doms →
        SetupEffect.logFatal "not implemented" ∈ enhanceEntityChars abortOnFatal cfg) := by
  have hl : doms.length > 0 := List.length_pos.mpr h
  have h0 : enhanceStmt 0 doms = some (SetupEffect.logFatal "not implemented") := by
    simp [enhanceStmt, hl]
  have h1 : enhanceStmt 1 doms = some SetupEffect.sparseTypesSetFace := by
    simp [enhanceStmt, hl]
  have h2 : enhanceStmt 2 doms = some (SetupEffect.logFatal "not implemented") := by
    simp [enhanceStmt, hl]
  refine ⟨h0, h1, h2, ?_, by decide, by decide, ?_⟩
  · intro i
    fin_cases i
    · simp [h0]
    · simp [h1]
    · simp [h2]
  · intro abortOnFatal cfg hc
    unfold enhanceEntityChars
    rcases hc with hc | hc
    · rw [hc, h0]
      simp [runSetup]
    · rw [hc, h2]
      by_cases e0 : (cfg 0).length > 0 <;> by_cases e1 : (cfg 1).length > 0 <;>
        cases abortOnFatal <;> simp [runSetup, enhanceStmt, e0, e1]

theorem enhance_dispatch_witness :
    ([()] : List Unit) ≠ [] ∧
      (enhanceStmt 0 [()] = some (SetupEffect.logFatal "not implemented") ∧
        enhanceStmt 1 [()] = some SetupEffect.sparseTypesSetFace ∧
        enhanceStmt 2 [()] = some (SetupEffect.logFatal "not implemented") ∧
        (∀ i : Fin 3, enhanceStmt i [()] ≠ none) ∧
        (List.finRange 3).filter handled = [1] ∧
        (List.finRange 3).filter unimplemented = [0, 2] ∧
        (∀ (abortOnFatal : Bool) (cfg : Fin 3 → List Unit), cfg 0 = [()] ∨ cfg 2 = [()] →
          SetupEffect.logFatal "not implemented" ∈ enhanceEntityChars abortOnFatal cfg)) :=
  ⟨by decide, enhance_dispatch [()] (by decide)⟩

end edge
